import Mathlib

/-!
Verification of the TF-IDF duplicate-question detector of the
moodle-toolbox repository, as implemented in `find_similar_questions.py`
and `evaluate_questions_directory.py`.

Texts are modelled as lists of characters (`Str`), Python dictionaries as
a finite key set together with a total value function (`Dict`), floats as
exact real numbers, and `list.sort(key=..., reverse=True)` as the stable
`List.mergeSort` with the descending-by-similarity comparator.
-/

namespace MoodleToolbox

/-- A Python string, modelled as its list of characters. -/
abbrev Str := List Char

/-- Characters matched by the regex class `\s` (and stripped by `str.strip()`
and split on by `str.split()`); the model restricts to the ASCII whitespace
characters space, tab, newline, carriage return, vertical tab and form feed. -/
def pySpace (c : Char) : Bool :=
  c.toNat = 32 || c.toNat = 9 || c.toNat = 10 || c.toNat = 13 ||
    c.toNat = 11 || c.toNat = 12

/-- Model of Python `str.lower()` as a character-wise case mapping, covering
ASCII letters and the accented letters of the regex class used by
`clean_text` (Á É Í Ó Ú Ñ Ü, code points 193 201 205 211 218 209 220). -/
def pyLower (c : Char) : Char :=
  if 65 ≤ c.toNat ∧ c.toNat ≤ 90 then Char.ofNat (c.toNat + 32)
  else if c.toNat = 193 then 'á'
  else if c.toNat = 201 then 'é'
  else if c.toNat = 205 then 'í'
  else if c.toNat = 211 then 'ó'
  else if c.toNat = 218 then 'ú'
  else if c.toNat = 209 then 'ñ'
  else if c.toNat = 220 then 'ü'
  else c

/-- Characters kept by the substitution `re.sub(r'[^a-záéíóúñü0-9\s]', ' ', text)`
in `clean_text`: lower-case ASCII letters (97-122), the seven accented lower-case
letters (225 233 237 243 250 241 252), digits (48-57) and whitespace. -/
def keepChar (c : Char) : Bool :=
  (97 ≤ c.toNat && c.toNat ≤ 122) || (48 ≤ c.toNat && c.toNat ≤ 57) ||
    (c.toNat = 225 || c.toNat = 233 || c.toNat = 237 || c.toNat = 243 ||
      c.toNat = 250 || c.toNat = 241 || c.toNat = 252) ||
    pySpace c

/-- Adjacency invariant of whitespace-collapsed text: a whitespace character
is never immediately followed by another whitespace character. -/
def spacedR (a b : Char) : Prop :=
  pySpace a = true → pySpace b = false

/-- Worker for `collapseSpaces`; the flag records whether the previous
character belonged to a whitespace run that has already emitted its space. -/
def collapseAux : Bool → Str → Str
  | _, [] => []
  | inRun, c :: rest =>
    if pySpace c then
      if inRun then collapseAux true rest
      else ' ' :: collapseAux true rest
    else c :: collapseAux false rest

/-- Model of `re.sub(r'\s+', ' ', text)`: every maximal run of whitespace
characters is replaced by a single space. -/
def collapseSpaces (s : Str) : Str :=
  collapseAux false s

/-- Model of Python `str.strip()`: remove leading and trailing whitespace. -/
def stripEnds (s : Str) : Str :=
  (s.dropWhile pySpace).rdropWhile pySpace

/-- Model of `clean_text` from `find_similar_questions.py` lines 23-28 and the
identical `QuestionAnalyzer.clean_text` of `evaluate_questions_directory.py`
lines 244-249: lower-case the text, replace every character outside
`[a-záéíóúñü0-9\s]` by a space, collapse whitespace runs to single spaces,
and strip the ends. -/
def clean_text (s : Str) : Str :=
  stripEnds (collapseSpaces ((s.map pyLower).map fun c => if keepChar c then c else ' '))

/-- Worker for `pySplit`, accumulating the current word in reverse. -/
def pySplitAux : Str → Str → List Str
  | [], acc => if acc = [] then [] else [acc.reverse]
  | c :: rest, acc =>
    if pySpace c then
      if acc = [] then pySplitAux rest []
      else acc.reverse :: pySplitAux rest []
    else pySplitAux rest (c :: acc)

/-- Model of Python `str.split()` with no argument: split on whitespace runs
and discard empty pieces. -/
def pySplit (s : Str) : List Str :=
  pySplitAux s []

/-- A Python dictionary with `Str` keys: its finite key set together with a
total value function that returns the stored value on keys; on non-keys it
returns the value that `dict.get(k, 0)` would produce. -/
structure Dict (β : Type) where
  keys : Finset Str
  val : Str → β

/-- The empty TF-IDF vector, the model of the empty Python dict `{}`. -/
def emptyVec : Dict ℝ := ⟨∅, fun _ => 0⟩

/-- The words of a text that pass the `len(word) > 2` filter applied by
`compute_word_freq` and `compute_idf`. -/
def qualWords (t : Str) : List Str :=
  (pySplit t).filter fun w => 2 < w.length

/-- Model of `compute_word_freq` (`find_similar_questions.py` lines 86-93 and
the identical method of `evaluate_questions_directory.py` lines 251-258):
the multiset of words of length greater than 2, as a dict from each distinct
such word to its number of occurrences. -/
def compute_word_freq (t : Str) : Dict ℕ :=
  ⟨(qualWords t).toFinset, fun w => (qualWords t).count w⟩

/-- Number of documents of `texts` that contain the word `w` (of length
greater than 2) among their whitespace-split words: the `doc_count`
defaultdict built by both `compute_idf` implementations. Words of length
at most 2 never enter the dict, hence count 0. -/
def doc_count (texts : List Str) (w : Str) : ℕ :=
  if 2 < w.length then (texts.filter fun t => decide (w ∈ pySplit t)).length else 0

namespace FindSimilar

/-- Model of `compute_idf` from `find_similar_questions.py` lines 96-117:
the smoothed formula `log((num_docs + 1) / (doc_count + 1)) + 1` for every
word in the `doc_count` dict; absent words get the `idf.get(word, 0)`
default of 0. -/
noncomputable def compute_idf (texts : List Str) (w : Str) : ℝ :=
  if 1 ≤ doc_count texts w then
    Real.log (((texts.length : ℝ) + 1) / ((doc_count texts w : ℝ) + 1)) + 1
  else 0

end FindSimilar

namespace EvalDir

/-- Model of `QuestionAnalyzer.compute_idf` from
`evaluate_questions_directory.py` lines 260-276: the unsmoothed formula
`log(num_docs / (1 + doc_count))` for every word in the `doc_count` dict;
absent words get the `idf.get(word, 0)` default of 0. -/
noncomputable def compute_idf (texts : List Str) (w : Str) : ℝ :=
  if 1 ≤ doc_count texts w then
    Real.log ((texts.length : ℝ) / (1 + (doc_count texts w : ℝ)))
  else 0

end EvalDir

/-- Model of `compute_tfidf_vector` (`find_similar_questions.py` lines
120-133 and the identical method of `evaluate_questions_directory.py`):
term frequency `count / total_words` times the IDF weight `idf.get(word, 0)`;
the empty dict when the text has no qualifying token. -/
noncomputable def compute_tfidf_vector (t : Str) (idf : Str → ℝ) : Dict ℝ :=
  let f := compute_word_freq t
  let total : ℕ := ∑ w in f.keys, f.val w
  if total = 0 then ⟨∅, fun _ => 0⟩
  else ⟨f.keys, fun w => ((f.val w : ℝ) / (total : ℝ)) * idf w⟩

/-- Model of `cosine_similarity` (`find_similar_questions.py` lines 136-156
and the identical method of `evaluate_questions_directory.py` lines 293-313):
0 when either dict is empty, when the key sets are disjoint, or when either
magnitude is 0; otherwise the dot product over the common keys divided by
the product of the two magnitudes. -/
noncomputable def cosine_similarity (v1 v2 : Dict ℝ) : ℝ :=
  if v1.keys = ∅ ∨ v2.keys = ∅ then 0
  else if v1.keys ∩ v2.keys = ∅ then 0
  else if Real.sqrt (∑ w in v1.keys, v1.val w ^ 2) = 0 ∨
      Real.sqrt (∑ w in v2.keys, v2.val w ^ 2) = 0 then 0
  else (∑ w in v1.keys ∩ v2.keys, v1.val w * v2.val w) /
    (Real.sqrt (∑ w in v1.keys, v1.val w ^ 2) *
      Real.sqrt (∑ w in v2.keys, v2.val w ^ 2))

/-- The nested loop `for i in range(n): for j in range(i+1, n)` of the
pair-finding step, retaining `(i, j, similarity)` iff
`similarity >= threshold`. -/
noncomputable def pairLoop (vecs : List (Dict ℝ)) (threshold : ℝ) :
    List (ℕ × ℕ × ℝ) :=
  ((List.range vecs.length).flatMap fun i =>
    (List.range' (i + 1) (vecs.length - (i + 1))).map fun j =>
      (i, j, cosine_similarity (vecs.getD i emptyVec) (vecs.getD j emptyVec))).filter
    fun p => decide (threshold ≤ p.2.2)

/-- The descending-by-similarity comparator of
`similar_pairs.sort(key=lambda x: x[2], reverse=True)`. -/
noncomputable def pairLE (a b : ℕ × ℕ × ℝ) : Bool :=
  decide (b.2.2 ≤ a.2.2)

/-- Model of `similar_pairs.sort(key=lambda x: x[2], reverse=True)`: the
stable merge sort with the descending-by-similarity comparator. -/
noncomputable def sortPairs (l : List (ℕ × ℕ × ℝ)) : List (ℕ × ℕ × ℝ) :=
  l.mergeSort pairLE

/-- The complete pair-finding step shared by `find_similar_questions_in_file`
(lines 210-221), `find_similar_questions_in_directory` (lines 270-281) and
`QuestionAnalyzer.find_duplicates` (lines 330-344): enumerate, filter by
threshold, sort descending by similarity. -/
noncomputable def findPairs (vecs : List (Dict ℝ)) (threshold : ℝ) :
    List (ℕ × ℕ × ℝ) :=
  sortPairs (pairLoop vecs threshold)

/-- Model of the similarity pipeline of `find_similar_questions_in_file`
(`find_similar_questions.py` lines 198-221), applied to the list of cleaned
question texts: build the smoothed IDF table over the corpus, vectorize
every text with it, and run the pair-finding step. -/
noncomputable def find_similar_questions_in_file (texts : List Str)
    (threshold : ℝ) : List (ℕ × ℕ × ℝ) :=
  findPairs (texts.map fun t => compute_tfidf_vector t (FindSimilar.compute_idf texts))
    threshold

namespace EvalDir

/-- Model of `QuestionAnalyzer.find_duplicates`
(`evaluate_questions_directory.py` lines 315-344), applied to the list of
assembled full texts: return the empty list when fewer than 2 questions are
loaded, otherwise clean every text, build the unsmoothed IDF table,
vectorize, and run the pair-finding step. -/
noncomputable def find_duplicates (texts : List Str) (threshold : ℝ) :
    List (ℕ × ℕ × ℝ) :=
  if texts.length < 2 then []
  else
    findPairs
      ((texts.map clean_text).map fun t =>
        compute_tfidf_vector t (compute_idf (texts.map clean_text)))
      threshold

end EvalDir

/-- The fields extracted from a `<question>` element by
`extract_question_info` (`find_similar_questions.py` lines 31-70). -/
structure QuestionInfo where
  qtype : Str
  name : Str
  text : Str
  answers : List Str
  feedbacks : List Str
  generalfeedback : Str

/-- Model of `get_question_full_text` (`find_similar_questions.py` lines
73-83): join the question text, the answers, the answer feedbacks and, when
non-empty, the general feedback with single spaces. The name field is not
used. -/
def get_question_full_text (info : QuestionInfo) : Str :=
  List.intercalate [' ']
    (([info.text] ++ info.answers ++ info.feedbacks) ++
      (if info.generalfeedback ≠ [] then [info.generalfeedback] else []))

namespace EvalDir

/-- Model of the full-text assembly of `QuestionAnalyzer.analyze_question`
(`evaluate_questions_directory.py` line 216):
`f"{name} {text} {' '.join(answer_texts)}"`. -/
def analyze_question_full_text (info : QuestionInfo) : Str :=
  info.name ++ [' '] ++ info.text ++ [' '] ++ List.intercalate [' '] info.answers

end EvalDir

/-! ## Helper lemmas -/

theorem doc_count_le_length (texts : List Str) (w : Str) :
    doc_count texts w ≤ texts.length := by
  unfold doc_count
  split
  · exact List.length_filter_le _ _
  · exact Nat.zero_le _

theorem doc_count_pos (texts : List Str) (w t : Str) (hw : 2 < w.length)
    (ht : t ∈ texts) (hmem : w ∈ pySplit t) : 1 ≤ doc_count texts w := by
  unfold doc_count
  rw [if_pos hw]
  have : t ∈ texts.filter fun t => decide (w ∈ pySplit t) :=
    List.mem_filter.mpr ⟨ht, by simpa using hmem⟩
  exact List.length_pos.mpr (List.ne_nil_of_mem this)

theorem compute_idf_pos (texts : List Str) (w : Str)
    (h : 1 ≤ doc_count texts w) : 0 < FindSimilar.compute_idf texts w := by
  unfold FindSimilar.compute_idf
  rw [if_pos h]
  have hc : (doc_count texts w : ℝ) ≤ (texts.length : ℝ) := by
    exact_mod_cast doc_count_le_length texts w
  have hlog : 0 ≤ Real.log (((texts.length : ℝ) + 1) / ((doc_count texts w : ℝ) + 1)) := by
    apply Real.log_nonneg
    rw [le_div_iff₀ (by positivity)]
    linarith
  linarith

theorem pairLoop_eq_nil (vecs : List (Dict ℝ)) (th : ℝ)
    (h : vecs.length < 2) : pairLoop vecs th = [] := by
  have h01 : vecs.length = 0 ∨ vecs.length = 1 := by omega
  rcases h01 with h0 | h1
  · simp [pairLoop, h0]
  · simp [pairLoop, h1]

theorem pairLE_trans (a b c : ℕ × ℕ × ℝ) :
    pairLE a b → pairLE b c → pairLE a c := by
  simp only [pairLE, decide_eq_true_eq]
  exact fun h1 h2 => le_trans h2 h1

theorem pairLE_total (a b : ℕ × ℕ × ℝ) : pairLE a b || pairLE b a := by
  simp only [pairLE, Bool.or_eq_true, decide_eq_true_eq]
  exact le_total _ _

theorem mem_pairLoop (vecs : List (Dict ℝ)) (th : ℝ) (i j : ℕ) (s : ℝ) :
    (i, j, s) ∈ pairLoop vecs th ↔
      i < j ∧ j < vecs.length ∧
        s = cosine_similarity (vecs.getD i emptyVec) (vecs.getD j emptyVec) ∧
        th ≤ s := by
  unfold pairLoop
  rw [List.mem_filter]
  simp only [List.mem_flatMap, List.mem_map, List.mem_range, List.mem_range'_1,
    decide_eq_true_eq]
  constructor
  · rintro ⟨⟨a, ha, b, hb, heq⟩, hth⟩
    obtain ⟨h1, h2, h3⟩ : a = i ∧ b = j ∧
        cosine_similarity (vecs.getD a emptyVec) (vecs.getD b emptyVec) = s := by
      simpa [Prod.ext_iff] using heq
    subst h1; subst h2
    exact ⟨by omega, by omega, h3.symm, hth⟩
  · rintro ⟨hij, hj, rfl, hth⟩
    exact ⟨⟨i, by omega, j, ⟨by omega, by omega⟩, rfl⟩, hth⟩

theorem mem_findPairs (vecs : List (Dict ℝ)) (th : ℝ) (p : ℕ × ℕ × ℝ) :
    p ∈ findPairs vecs th ↔ p ∈ pairLoop vecs th := by
  simp only [findPairs, sortPairs, List.mem_mergeSort]

theorem pairwise_findPairs (vecs : List (Dict ℝ)) (th : ℝ) :
    List.Pairwise (fun a b : ℕ × ℕ × ℝ => b.2.2 ≤ a.2.2) (findPairs vecs th) := by
  have h := List.sorted_mergeSort pairLE_trans pairLE_total (pairLoop vecs th)
  simp only [findPairs, sortPairs]
  exact h.imp fun hab => by simpa [pairLE] using hab

theorem filter_length_mono {α : Type} (l : List α) (p q : α → Bool)
    (h : ∀ x ∈ l, p x = true → q x = true) :
    (l.filter p).length ≤ (l.filter q).length := by
  rw [← List.countP_eq_length_filter, ← List.countP_eq_length_filter]
  exact List.countP_mono_left h

theorem length_pairLoop_anti (vecs : List (Dict ℝ)) (t1 t2 : ℝ) (h : t1 ≤ t2) :
    (pairLoop vecs t2).length ≤ (pairLoop vecs t1).length := by
  unfold pairLoop
  apply filter_length_mono
  intro x _ hx
  simp only [decide_eq_true_eq] at hx ⊢
  exact le_trans h hx

theorem find_duplicates_eq_findPairs (texts : List Str) (t : ℝ) :
    EvalDir.find_duplicates texts t =
      findPairs ((texts.map clean_text).map fun d =>
        compute_tfidf_vector d (EvalDir.compute_idf (texts.map clean_text))) t := by
  unfold EvalDir.find_duplicates
  split
  · rename_i h2
    have hlen : ((texts.map clean_text).map fun d =>
        compute_tfidf_vector d (EvalDir.compute_idf (texts.map clean_text))).length < 2 := by
      simpa using h2
    rw [findPairs, pairLoop_eq_nil _ _ hlen]
    simp [sortPairs]
  · rfl

theorem total_pos_of_mem (t w : Str) (hw : w ∈ (compute_word_freq t).keys) :
    1 ≤ ∑ w2 in (compute_word_freq t).keys, (compute_word_freq t).val w2 := by
  have hcount : 1 ≤ (compute_word_freq t).val w := by
    simp only [compute_word_freq, List.mem_toFinset] at hw ⊢
    exact List.count_pos_iff.mpr hw
  calc
    1 ≤ (compute_word_freq t).val w := hcount
    _ ≤ ∑ w2 in (compute_word_freq t).keys, (compute_word_freq t).val w2 :=
      Finset.single_le_sum (fun i _ => Nat.zero_le _) hw

theorem total_zero_of_no_qual (t : Str) (h : qualWords t = []) :
    (∑ w in (compute_word_freq t).keys, (compute_word_freq t).val w) = 0 := by
  simp only [compute_word_freq, h, List.toFinset_nil, Finset.sum_empty]

theorem tfidf_def_zero (t : Str) (g : Str → ℝ)
    (h : (∑ w in (compute_word_freq t).keys, (compute_word_freq t).val w) = 0) :
    compute_tfidf_vector t g = emptyVec := by
  simp only [compute_tfidf_vector]
  rw [if_pos h]
  rfl

theorem tfidf_def_pos (t : Str) (g : Str → ℝ)
    (h : (∑ w in (compute_word_freq t).keys, (compute_word_freq t).val w) ≠ 0) :
    compute_tfidf_vector t g =
      ⟨(compute_word_freq t).keys,
        fun w => (((compute_word_freq t).val w : ℝ) /
          ((∑ w2 in (compute_word_freq t).keys,
              (compute_word_freq t).val w2 : ℕ) : ℝ)) * g w⟩ := by
  simp only [compute_tfidf_vector]
  rw [if_neg h]

theorem tfidf_keys_subset (t : Str) (g : Str → ℝ) :
    (compute_tfidf_vector t g).keys ⊆ (compute_word_freq t).keys := by
  by_cases h : (∑ w in (compute_word_freq t).keys, (compute_word_freq t).val w) = 0
  · rw [tfidf_def_zero t g h]
    exact Finset.empty_subset _
  · rw [tfidf_def_pos t g h]

theorem tfidf_val_factor (t : Str) (g : Str → ℝ) (w : Str) :
    ∃ c : ℝ, 0 ≤ c ∧ (compute_tfidf_vector t g).val w = c * g w := by
  by_cases h : (∑ w2 in (compute_word_freq t).keys, (compute_word_freq t).val w2) = 0
  · exact ⟨0, le_refl 0, by rw [tfidf_def_zero t g h]; simp [emptyVec]⟩
  · refine ⟨((compute_word_freq t).val w : ℝ) /
      ((∑ w2 in (compute_word_freq t).keys, (compute_word_freq t).val w2 : ℕ) : ℝ),
      by positivity, ?_⟩
    rw [tfidf_def_pos t g h]

theorem tfidf_products_nonneg (t1 t2 : Str) (g : Str → ℝ) (w : Str) :
    0 ≤ (compute_tfidf_vector t1 g).val w * (compute_tfidf_vector t2 g).val w := by
  obtain ⟨c1, hc1, he1⟩ := tfidf_val_factor t1 g w
  obtain ⟨c2, hc2, he2⟩ := tfidf_val_factor t2 g w
  rw [he1, he2]
  have hring : c1 * g w * (c2 * g w) = c1 * c2 * g w ^ 2 := by ring
  rw [hring]
  exact mul_nonneg (mul_nonneg hc1 hc2) (sq_nonneg _)

theorem tfidf_val_pos_of_corpus (texts : List Str) (d : Str) (hd : d ∈ texts)
    (w : Str)
    (hw : w ∈ (compute_tfidf_vector d (FindSimilar.compute_idf texts)).keys) :
    0 < (compute_tfidf_vector d (FindSimilar.compute_idf texts)).val w := by
  have hkeys : w ∈ (compute_word_freq d).keys :=
    tfidf_keys_subset d (FindSimilar.compute_idf texts) hw
  have htot1 : 1 ≤ ∑ w2 in (compute_word_freq d).keys, (compute_word_freq d).val w2 :=
    total_pos_of_mem d w hkeys
  have htot : (∑ w2 in (compute_word_freq d).keys, (compute_word_freq d).val w2) ≠ 0 := by
    omega
  rw [tfidf_def_pos d _ htot]
  have hwq : w ∈ qualWords d := by
    simpa [compute_word_freq, List.mem_toFinset] using hkeys
  have hf := List.mem_filter.mp
    (show w ∈ (pySplit d).filter (fun w => decide (2 < w.length)) from hwq)
  have hlen : 2 < w.length := by simpa using hf.2
  have hidf : 0 < FindSimilar.compute_idf texts w :=
    compute_idf_pos texts w (doc_count_pos texts w d hlen hd hf.1)
  have hcount : 0 < ((compute_word_freq d).val w : ℝ) := by
    have h1 : 0 < (compute_word_freq d).val w := by
      simp only [compute_word_freq, List.mem_toFinset] at hkeys ⊢
      exact List.count_pos_iff.mpr hkeys
    exact_mod_cast h1
  have htotR : 0 < ((∑ w2 in (compute_word_freq d).keys,
      (compute_word_freq d).val w2 : ℕ) : ℝ) := by
    exact_mod_cast Nat.lt_of_lt_of_le Nat.zero_lt_one htot1
  exact mul_pos (div_pos hcount htotR) hidf

theorem cosine_le_one (v1 v2 : Dict ℝ) : cosine_similarity v1 v2 ≤ 1 := by
  simp only [cosine_similarity]
  split_ifs with h1 h2 h3
  · norm_num
  · norm_num
  · norm_num
  · rw [div_le_one]
    · calc
        ∑ w in v1.keys ∩ v2.keys, v1.val w * v2.val w ≤
            |∑ w in v1.keys ∩ v2.keys, v1.val w * v2.val w| := le_abs_self _
        _ = Real.sqrt ((∑ w in v1.keys ∩ v2.keys, v1.val w * v2.val w) ^ 2) :=
          (Real.sqrt_sq_eq_abs _).symm
        _ ≤ Real.sqrt ((∑ w in v1.keys ∩ v2.keys, v1.val w ^ 2) *
            ∑ w in v1.keys ∩ v2.keys, v2.val w ^ 2) :=
          Real.sqrt_le_sqrt (Finset.sum_mul_sq_le_sq_mul_sq _ _ _)
        _ = Real.sqrt (∑ w in v1.keys ∩ v2.keys, v1.val w ^ 2) *
            Real.sqrt (∑ w in v1.keys ∩ v2.keys, v2.val w ^ 2) :=
          Real.sqrt_mul (Finset.sum_nonneg fun w _ => sq_nonneg _) _
        _ ≤ Real.sqrt (∑ w in v1.keys, v1.val w ^ 2) *
            Real.sqrt (∑ w in v2.keys, v2.val w ^ 2) := by
          apply mul_le_mul
          · exact Real.sqrt_le_sqrt (Finset.sum_le_sum_of_subset_of_nonneg
              Finset.inter_subset_left fun w _ _ => sq_nonneg _)
          · exact Real.sqrt_le_sqrt (Finset.sum_le_sum_of_subset_of_nonneg
              Finset.inter_subset_right fun w _ _ => sq_nonneg _)
          · exact Real.sqrt_nonneg _
          · exact Real.sqrt_nonneg _
    · push_neg at h3
      have hp1 : 0 < Real.sqrt (∑ w in v1.keys, v1.val w ^ 2) :=
        lt_of_le_of_ne (Real.sqrt_nonneg _) (Ne.symm h3.1)
      have hp2 : 0 < Real.sqrt (∑ w in v2.keys, v2.val w ^ 2) :=
        lt_of_le_of_ne (Real.sqrt_nonneg _) (Ne.symm h3.2)
      exact mul_pos hp1 hp2

theorem cosine_nonneg (v1 v2 : Dict ℝ)
    (h : ∀ w, 0 ≤ v1.val w * v2.val w) : 0 ≤ cosine_similarity v1 v2 := by
  simp only [cosine_similarity]
  split_ifs with h1 h2 h3
  · exact le_refl (0 : ℝ)
  · exact le_refl (0 : ℝ)
  · exact le_refl (0 : ℝ)
  · exact div_nonneg (Finset.sum_nonneg fun w _ => h w)
      (mul_nonneg (Real.sqrt_nonneg _) (Real.sqrt_nonneg _))

theorem cosine_empty_left (v : Dict ℝ) : cosine_similarity emptyVec v = 0 := by
  have h : emptyVec.keys = ∅ := rfl
  simp only [cosine_similarity]
  rw [if_pos (Or.inl h)]

theorem cosine_empty_right (v : Dict ℝ) : cosine_similarity v emptyVec = 0 := by
  have h : emptyVec.keys = ∅ := rfl
  simp only [cosine_similarity]
  rw [if_pos (Or.inr h)]

theorem getD_map_tfidf (texts : List Str) (g : Str → ℝ) (k : ℕ)
    (hk : k < texts.length) :
    (texts.map fun d => compute_tfidf_vector d g).getD k emptyVec =
      compute_tfidf_vector (texts.getD k []) g := by
  rw [List.getD_eq_getElem?_getD, List.getElem?_map, List.getD_eq_getElem?_getD,
    List.getElem?_eq_getElem hk]
  simp

theorem pyLower_fixed (c : Char) (h : keepChar c = true) : pyLower c = c := by
  simp only [keepChar, pySpace, Bool.or_eq_true, Bool.and_eq_true,
    decide_eq_true_eq] at h
  unfold pyLower
  split_ifs <;> first | rfl | (exfalso; omega)

theorem replace_mem_keep (l : Str) (c : Char)
    (hc : c ∈ l.map fun c => if keepChar c then c else ' ') :
    keepChar c = true := by
  obtain ⟨a, _, rfl⟩ := List.mem_map.mp hc
  by_cases h : keepChar a = true
  · rw [if_pos h]; exact h
  · rw [if_neg h]; decide

theorem mem_collapseAux (l : Str) : ∀ (b : Bool) (c : Char),
    c ∈ collapseAux b l → c = ' ' ∨ (c ∈ l ∧ pySpace c = false) := by
  induction l with
  | nil => intro b c hc; simp [collapseAux] at hc
  | cons d rest ih =>
    intro b c hc
    cases hpd : pySpace d with
    | true =>
      cases b with
      | false =>
        simp only [collapseAux, hpd, if_true] at hc
        rcases List.mem_cons.mp hc with h | h
        · exact Or.inl h
        · rcases ih true c h with h2 | ⟨h2, h3⟩
          · exact Or.inl h2
          · exact Or.inr ⟨List.mem_cons_of_mem d h2, h3⟩
      | true =>
        simp only [collapseAux, hpd, if_true] at hc
        rcases ih true c hc with h2 | ⟨h2, h3⟩
        · exact Or.inl h2
        · exact Or.inr ⟨List.mem_cons_of_mem d h2, h3⟩
    | false =>
      simp only [collapseAux, hpd, Bool.false_eq_true, if_false] at hc
      rcases List.mem_cons.mp hc with h | h
      · rw [h]
        exact Or.inr ⟨List.mem_cons_self d rest, hpd⟩
      · rcases ih false c h with h2 | ⟨h2, h3⟩
        · exact Or.inl h2
        · exact Or.inr ⟨List.mem_cons_of_mem d h2, h3⟩

theorem collapseAux_true_head (l : Str) : ∀ c : Char,
    (collapseAux true l).head? = some c → pySpace c = false := by
  induction l with
  | nil => intro c hc; simp [collapseAux] at hc
  | cons d rest ih =>
    intro c hc
    cases hpd : pySpace d with
    | true =>
      simp only [collapseAux, hpd, if_true] at hc
      exact ih c hc
    | false =>
      simp only [collapseAux, hpd, Bool.false_eq_true, if_false,
        List.head?_cons, Option.some.injEq] at hc
      rw [← hc]
      exact hpd

theorem chain_collapseAux (l : Str) : ∀ b : Bool,
    List.Chain' spacedR (collapseAux b l) := by
  induction l with
  | nil => intro b; simp [collapseAux]
  | cons d rest ih =>
    intro b
    cases hpd : pySpace d with
    | false =>
      simp only [collapseAux, hpd, Bool.false_eq_true, if_false]
      rw [List.chain'_cons']
      refine ⟨fun y _ => fun hd2 => ?_, ih false⟩
      rw [hpd] at hd2
      cases hd2
    | true =>
      cases b with
      | true =>
        simp only [collapseAux, hpd, if_true]
        exact ih true
      | false =>
        simp only [collapseAux, hpd, if_true, Bool.false_eq_true, if_false]
        rw [List.chain'_cons']
        refine ⟨fun y hy => fun _ => ?_, ih true⟩
        exact collapseAux_true_head rest y hy

theorem collapseAux_eq_self : ∀ l : Str,
    (∀ c ∈ l, pySpace c = true → c = ' ') → List.Chain' spacedR l →
      collapseAux false l = l ∧
        ((∀ c, l.head? = some c → pySpace c = false) → collapseAux true l = l) := by
  intro l
  induction l with
  | nil => intro _ _; exact ⟨rfl, fun _ => rfl⟩
  | cons d rest ih =>
    intro hsp hch
    have hsp2 : ∀ c ∈ rest, pySpace c = true → c = ' ' := fun c hc =>
      hsp c (List.mem_cons_of_mem d hc)
    have hch2 : List.Chain' spacedR rest := hch.tail
    obtain ⟨ihf, iht⟩ := ih hsp2 hch2
    cases hpd : pySpace d with
    | true =>
      have hd2 : d = ' ' := hsp d (List.mem_cons_self d rest) hpd
      have hhead : ∀ c, rest.head? = some c → pySpace c = false := by
        intro c hc
        have hr := (List.chain'_cons'.mp hch).1 c hc
        exact hr hpd
      constructor
      · simp only [collapseAux, hpd, if_true, Bool.false_eq_true, if_false]
        rw [iht hhead, hd2]
      · intro hhead0
        have hne := hhead0 d rfl
        rw [hpd] at hne
        cases hne
    | false =>
      constructor
      · simp only [collapseAux, hpd, Bool.false_eq_true, if_false]
        rw [ihf]
      · intro _
        simp only [collapseAux, hpd, Bool.false_eq_true, if_false]
        rw [ihf]

theorem map_pyLower_id (l : Str) (h : ∀ c ∈ l, keepChar c = true) :
    l.map pyLower = l := by
  conv_rhs => rw [← List.map_id l]
  exact List.map_congr_left fun a ha => pyLower_fixed a (h a ha)

theorem map_replace_id (l : Str) (h : ∀ c ∈ l, keepChar c = true) :
    (l.map fun c => if keepChar c then c else ' ') = l := by
  conv_rhs => rw [← List.map_id l]
  refine List.map_congr_left fun a ha => ?_
  rw [if_pos (h a ha)]
  rfl

theorem stripEnds_isInf (l : Str) : List.IsInfix (stripEnds l) l := by
  unfold stripEnds
  exact ( List.rdropWhile_prefix pySpace (l.dropWhile pySpace)).isInfix.trans
    (List.dropWhile_suffix pySpace).isInfix

theorem dropWhile_eq_self_of_head (x : Str)
    (h : ∀ c, x.head? = some c → pySpace c = false) :
    x.dropWhile pySpace = x := by
  cases x with
  | nil => rfl
  | cons a xs =>
    have ha : pySpace a = false := h a rfl
    rw [List.dropWhile_cons_of_neg (by simp [ha])]

theorem prefix_head_eq (x y : Str) (hp : List.IsPrefix x y) (c : Char)
    (hc : x.head? = some c) : y.head? = some c := by
  obtain ⟨t, rfl⟩ := hp
  cases x with
  | nil => simp at hc
  | cons a xs => simpa using hc

theorem head_dropWhile_false (x : Str) : ∀ c : Char,
    (x.dropWhile pySpace).head? = some c → pySpace c = false := by
  induction x with
  | nil => intro c hc; simp at hc
  | cons a xs ih =>
    intro c hc
    by_cases hpa : pySpace a = true
    · rw [List.dropWhile_cons_of_pos (by simp [hpa])] at hc
      exact ih c hc
    · have ha : pySpace a = false := by simpa using hpa
      rw [List.dropWhile_cons_of_neg (by simp [ha])] at hc
      simp only [List.head?_cons, Option.some.injEq] at hc
      rw [← hc]
      exact ha

theorem dropWhile_stripEnds (l : Str) :
    (stripEnds l).dropWhile pySpace = stripEnds l := by
  unfold stripEnds
  apply dropWhile_eq_self_of_head
  intro c hc
  exact head_dropWhile_false l c
    (prefix_head_eq _ _ ( List.rdropWhile_prefix pySpace (l.dropWhile pySpace)) c hc)

theorem stripEnds_idem (l : Str) : stripEnds (stripEnds l) = stripEnds l := by
  show ((stripEnds l).dropWhile pySpace).rdropWhile pySpace = stripEnds l
  rw [dropWhile_stripEnds]
  show ((l.dropWhile pySpace).rdropWhile pySpace).rdropWhile pySpace = stripEnds l
  rw [List.rdropWhile_idempotent pySpace (l.dropWhile pySpace)]
  rfl

theorem collapse_chars (s : Str) : ∀ c ∈ collapseSpaces
    ((s.map pyLower).map fun c => if keepChar c then c else ' '),
    keepChar c = true ∧ (pySpace c = true → c = ' ') := by
  intro c hc
  rcases mem_collapseAux _ false c hc with h | ⟨hmem, hns⟩
  · subst h
    exact ⟨by decide, fun _ => rfl⟩
  · refine ⟨replace_mem_keep _ c hmem, fun hsp => ?_⟩
    rw [hns] at hsp
    cases hsp

/-! ## Claims -/

/-- C1 (counterexample): the unsmoothed IDF of
`QuestionAnalyzer.compute_idf` in `evaluate_questions_directory.py` is not
strictly positive for every token of length greater than 2 appearing in at
least one document: over the one-document corpus `["abc"]`, the token
`"abc"` has length 3 and appears in the document, yet its IDF weight
`log(1 / (1 + 1)) = log(1/2)` is negative. -/
theorem C1_counterexample :
    2 < ("abc".toList : Str).length ∧ "abc".toList ∈ pySplit "abc".toList ∧
      EvalDir.compute_idf ["abc".toList] "abc".toList < 0 := by
  refine ⟨by decide, by decide, ?_⟩
  have h : doc_count ["abc".toList] "abc".toList = 1 := by decide
  unfold EvalDir.compute_idf
  rw [h]
  norm_num
  exact Real.log_neg (by norm_num) (by norm_num)

/-- C1 (amended): for every corpus and every token of length greater than 2
that appears in at least one document of the corpus, the smoothed IDF weight
computed by `compute_idf` of `find_similar_questions.py` is strictly
positive. (The unsmoothed implementation in
`evaluate_questions_directory.py` does not satisfy this.) -/
theorem C1_idf_positive (texts : List Str) (w t : Str) (hw : 2 < w.length)
    (ht : t ∈ texts) (hmem : w ∈ pySplit t) :
    0 < FindSimilar.compute_idf texts w :=
  compute_idf_pos texts w (doc_count_pos texts w t hw ht hmem)

/-- C1 (witness): the amended claim applied to the corpus `["abc"]` and the
token `"abc"`. -/
theorem C1_witness :
    (2 < ("abc".toList : Str).length ∧ "abc".toList ∈ ["abc".toList] ∧
        "abc".toList ∈ pySplit "abc".toList) ∧
      0 < FindSimilar.compute_idf ["abc".toList] "abc".toList :=
  ⟨⟨by decide, by decide, by decide⟩,
    C1_idf_positive ["abc".toList] "abc".toList "abc".toList (by decide)
      (by decide) (by decide)⟩

/-- C2 (counterexample): the full text assembled by
`QuestionAnalyzer.analyze_question` in `evaluate_questions_directory.py`
does include the question's display name: two question records that differ
only in their name produce different assembled texts. -/
theorem C2_counterexample :
    EvalDir.analyze_question_full_text ⟨[], ['a'], ['t'], [], [], []⟩ ≠
      EvalDir.analyze_question_full_text ⟨[], ['b'], ['t'], [], [], []⟩ := by
  decide

/-- C2 (amended): the document text assembled by `get_question_full_text`
in `find_similar_questions.py` never depends on the question's display
name; the assembly in `QuestionAnalyzer.analyze_question` of
`evaluate_questions_directory.py`, by contrast, prefixes the name to the
text. -/
theorem C2_name_excluded (q n1 n2 t : Str) (ans fb : List Str) (gf : Str) :
    get_question_full_text ⟨q, n1, t, ans, fb, gf⟩ =
      get_question_full_text ⟨q, n2, t, ans, fb, gf⟩ := rfl

/-- C3: the pair-finding step returns exactly the unordered index pairs
`(i, j)` with `i < j` whose cosine similarity meets the threshold
(inclusive), sorted by similarity descending; ties keep their generation
order (stability of the sort), and the result is deterministic: the model
is a pure function of the input, and `QuestionAnalyzer.find_duplicates`
computes exactly this function of its pipeline's vectors. -/
theorem C3_pairs_exact_sorted (vecs : List (Dict ℝ)) (t : ℝ) (i j : ℕ)
    (s : ℝ) (a b : ℕ × ℕ × ℝ) (texts : List Str) :
    ((i, j, s) ∈ findPairs vecs t ↔
      i < j ∧ j < vecs.length ∧
        s = cosine_similarity (vecs.getD i emptyVec) (vecs.getD j emptyVec) ∧
        t ≤ s) ∧
    List.Pairwise (fun a b : ℕ × ℕ × ℝ => b.2.2 ≤ a.2.2) (findPairs vecs t) ∧
    (List.Sublist [a, b] (pairLoop vecs t) → b.2.2 ≤ a.2.2 →
      List.Sublist [a, b] (findPairs vecs t)) ∧
    EvalDir.find_duplicates texts t =
      findPairs ((texts.map clean_text).map fun d =>
        compute_tfidf_vector d (EvalDir.compute_idf (texts.map clean_text))) t := by
  refine ⟨(mem_findPairs vecs t _).trans (mem_pairLoop vecs t i j s),
    pairwise_findPairs vecs t, fun hsub hle => ?_,
    find_duplicates_eq_findPairs texts t⟩
  simp only [findPairs, sortPairs]
  exact List.pair_sublist_mergeSort pairLE_trans pairLE_total
    (by simpa [pairLE] using hle) hsub

/-- C3 (witness): the characterization applied to a concrete input. -/
theorem C3_witness :
    (0, 1, (0 : ℝ)) ∈ findPairs ([] : List (Dict ℝ)) 0 ↔
      0 < 1 ∧ 1 < ([] : List (Dict ℝ)).length ∧
        (0 : ℝ) = cosine_similarity (([] : List (Dict ℝ)).getD 0 emptyVec)
            (([] : List (Dict ℝ)).getD 1 emptyVec) ∧ (0 : ℝ) ≤ 0 :=
  (C3_pairs_exact_sorted [] 0 0 1 0 (0, 0, 0) (0, 0, 0) []).1

/-- C5: raising the threshold never increases the number of retained pairs,
for the pair-finding step over any vector corpus and in particular for
`find_similar_questions_in_file`. -/
theorem C5_threshold_monotone (vecs : List (Dict ℝ)) (texts : List Str)
    (t1 t2 : ℝ) (h : t1 ≤ t2) :
    (findPairs vecs t2).length ≤ (findPairs vecs t1).length ∧
      (find_similar_questions_in_file texts t2).length ≤
        (find_similar_questions_in_file texts t1).length := by
  constructor
  · simp only [findPairs, sortPairs, List.length_mergeSort]
    exact length_pairLoop_anti vecs t1 t2 h
  · simp only [find_similar_questions_in_file, findPairs, sortPairs,
      List.length_mergeSort]
    exact length_pairLoop_anti _ t1 t2 h

/-- C5 (witness): threshold monotonicity at thresholds 0 and 1 over the
empty corpus. -/
theorem C5_witness :
    (0 : ℝ) ≤ 1 ∧
      ((findPairs ([] : List (Dict ℝ)) 1).length ≤
          (findPairs ([] : List (Dict ℝ)) 0).length ∧
        (find_similar_questions_in_file [] 1).length ≤
          (find_similar_questions_in_file [] 0).length) :=
  ⟨by norm_num, C5_threshold_monotone [] [] 0 1 (by norm_num)⟩

/-- C4: over exact real arithmetic, the cosine similarity of any two vectors
produced by `compute_tfidf_vector` from the same IDF table lies in
`[0, 1]`. The upper bound is Cauchy-Schwarz restricted to the common keys;
the lower bound holds because both stored weights of a common word carry
the same IDF factor, so their product is a nonnegative multiple of its
square. -/
theorem C4_cosine_bounds (g : Str → ℝ) (t1 t2 : Str) :
    0 ≤ cosine_similarity (compute_tfidf_vector t1 g) (compute_tfidf_vector t2 g) ∧
      cosine_similarity (compute_tfidf_vector t1 g) (compute_tfidf_vector t2 g) ≤ 1 :=
  ⟨cosine_nonneg _ _ (tfidf_products_nonneg t1 t2 g), cosine_le_one _ _⟩

/-- C6: a document with no token of length greater than 2 receives the empty
vector from `compute_tfidf_vector` (not an error); the cosine similarity of
an empty vector with any vector is exactly 0 in both argument positions
(not an error, not NaN); consequently such a document appears in no retained
pair at any threshold greater than 0. -/
theorem C6_degenerate_document (t : Str) (g : Str → ℝ)
    (h : ∀ w ∈ pySplit t, w.length ≤ 2) :
    compute_tfidf_vector t g = emptyVec ∧
      (∀ v, cosine_similarity emptyVec v = 0 ∧ cosine_similarity v emptyVec = 0) ∧
      ∀ (texts : List Str) (th : ℝ) (k i j : ℕ) (s : ℝ), 0 < th →
        texts.getD k [] = t →
        (i, j, s) ∈ findPairs (texts.map fun d => compute_tfidf_vector d g) th →
        i ≠ k ∧ j ≠ k := by
  have hq : qualWords t = [] := by
    rw [qualWords, List.filter_eq_nil_iff]
    intro w hw
    simpa using Nat.not_lt.mpr (h w hw)
  have hempty : compute_tfidf_vector t g = emptyVec :=
    tfidf_def_zero t g (total_zero_of_no_qual t hq)
  refine ⟨hempty, fun v => ⟨cosine_empty_left v, cosine_empty_right v⟩, ?_⟩
  intro texts th k i j s hth hk hmem
  obtain ⟨hij, hjn, hs, hths⟩ :=
    (mem_pairLoop _ _ _ _ _).mp ((mem_findPairs _ _ _).mp hmem)
  have hn : (texts.map fun d => compute_tfidf_vector d g).length = texts.length := by
    simp
  rw [hn] at hjn
  constructor
  · intro heq
    subst heq
    have hilen : i < texts.length := by omega
    have hveci : (texts.map fun d => compute_tfidf_vector d g).getD i emptyVec =
        emptyVec := by
      rw [getD_map_tfidf texts g i hilen, hk, hempty]
    rw [hveci, cosine_empty_left] at hs
    linarith
  · intro heq
    subst heq
    have hvecj : (texts.map fun d => compute_tfidf_vector d g).getD j emptyVec =
        emptyVec := by
      rw [getD_map_tfidf texts g j hjn, hk, hempty]
    rw [hvecj, cosine_empty_right] at hs
    linarith

/-- C6 (witness): the degenerate-document guarantees applied to the
two-letter document `"ab"`. -/
theorem C6_witness :
    (∀ w ∈ pySplit "ab".toList, w.length ≤ 2) ∧
      compute_tfidf_vector "ab".toList (fun _ => 0) = emptyVec :=
  ⟨by decide, (C6_degenerate_document "ab".toList (fun _ => 0) (by decide)).1⟩

/-- C8: in the smoothed pipeline of `find_similar_questions.py`, every
weight stored in the TF-IDF vector of a corpus document is strictly
positive, and the cosine similarity of any two corpus vectors lies exactly
in `[0, 1]` over exact real arithmetic. -/
theorem C8_corpus_vectors (texts : List Str) (d : Str) (hd : d ∈ texts) :
    (∀ w ∈ (compute_tfidf_vector d (FindSimilar.compute_idf texts)).keys,
        0 < (compute_tfidf_vector d (FindSimilar.compute_idf texts)).val w) ∧
      ∀ d2 ∈ texts,
        0 ≤ cosine_similarity (compute_tfidf_vector d (FindSimilar.compute_idf texts))
            (compute_tfidf_vector d2 (FindSimilar.compute_idf texts)) ∧
          cosine_similarity (compute_tfidf_vector d (FindSimilar.compute_idf texts))
            (compute_tfidf_vector d2 (FindSimilar.compute_idf texts)) ≤ 1 :=
  ⟨fun w hw => tfidf_val_pos_of_corpus texts d hd w hw,
    fun d2 _ => ⟨cosine_nonneg _ _ (tfidf_products_nonneg d d2 _), cosine_le_one _ _⟩⟩

/-- C8 (witness): the corpus-vector invariants applied to the one-document
corpus `["abc"]`. -/
theorem C8_witness :
    "abc".toList ∈ ["abc".toList] ∧
      ∀ w ∈ (compute_tfidf_vector "abc".toList
          (FindSimilar.compute_idf ["abc".toList])).keys,
        0 < (compute_tfidf_vector "abc".toList
            (FindSimilar.compute_idf ["abc".toList])).val w :=
  ⟨by decide, (C8_corpus_vectors ["abc".toList] "abc".toList (by decide)).1⟩

/-- C9: the text normalizer `clean_text` is idempotent: applying it twice
yields the same result as applying it once. Every character of a cleaned
text belongs to the kept class and is fixed by lower-casing, whitespace is
reduced to single interior spaces, and the ends carry no whitespace, so the
second pass changes nothing. -/
theorem C9_clean_text_idempotent (s : Str) :
    clean_text (clean_text s) = clean_text s := by
  have hY := collapse_chars s
  have hinf : List.IsInfix (clean_text s)
      (collapseSpaces ((s.map pyLower).map fun c => if keepChar c then c else ' ')) :=
    stripEnds_isInf _
  have hZ1 : ∀ c ∈ clean_text s, keepChar c = true := fun c hc =>
    (hY c (hinf.sublist.subset hc)).1
  have hZ2 : ∀ c ∈ clean_text s, pySpace c = true → c = ' ' := fun c hc =>
    (hY c (hinf.sublist.subset hc)).2
  have hZ3 : List.Chain' spacedR (clean_text s) :=
    List.Chain'.infix (chain_collapseAux _ false) hinf
  have key : clean_text (clean_text s) = stripEnds (clean_text s) := by
    show stripEnds (collapseSpaces
      (((clean_text s).map pyLower).map fun c => if keepChar c then c else ' ')) =
        stripEnds (clean_text s)
    rw [map_pyLower_id _ hZ1, map_replace_id _ hZ1]
    rw [show collapseSpaces (clean_text s) = clean_text s from
      (collapseAux_eq_self (clean_text s) hZ2 hZ3).1]
  rw [key]
  exact stripEnds_idem
    (collapseSpaces ((s.map pyLower).map fun c => if keepChar c then c else ' '))

/-- C10: every key of the frequency mapping of `compute_word_freq` has
length at least 3 and count at least 1, and every key of the vector of
`compute_tfidf_vector` is a key of that frequency mapping. -/
theorem C10_token_invariants (t : Str) (g : Str → ℝ) :
    (∀ w ∈ (compute_word_freq t).keys,
        3 ≤ w.length ∧ 1 ≤ (compute_word_freq t).val w) ∧
      ∀ w ∈ (compute_tfidf_vector t g).keys, w ∈ (compute_word_freq t).keys := by
  constructor
  · intro w hw
    have hwq : w ∈ qualWords t := by
      simpa [compute_word_freq, List.mem_toFinset] using hw
    have hf := List.mem_filter.mp
      (show w ∈ (pySplit t).filter (fun w => decide (2 < w.length)) from hwq)
    refine ⟨?_, ?_⟩
    · have : 2 < w.length := by simpa using hf.2
      omega
    · simp only [compute_word_freq, List.mem_toFinset] at hw ⊢
      exact List.count_pos_iff.mpr hw
  · intro w hw
    exact tfidf_keys_subset t g hw

/-- C10 (witness): the token invariants applied to the document `"abc"`. -/
theorem C10_witness :
    "abc".toList ∈ (compute_word_freq "abc".toList).keys ∧
      3 ≤ ("abc".toList : Str).length ∧
        1 ≤ (compute_word_freq "abc".toList).val "abc".toList :=
  ⟨by decide,
    (C10_token_invariants "abc".toList fun _ => 0).1 "abc".toList (by decide)⟩

/-- C7: a corpus with fewer than 2 documents produces the empty pair list,
both in `find_similar_questions_in_file` and in
`QuestionAnalyzer.find_duplicates`. -/
theorem C7_small_corpus_empty (texts : List Str) (th : ℝ)
    (h : texts.length < 2) :
    find_similar_questions_in_file texts th = [] ∧
      EvalDir.find_duplicates texts th = [] := by
  constructor
  · have : (texts.map fun t =>
        compute_tfidf_vector t (FindSimilar.compute_idf texts)).length < 2 := by
      simpa using h
    unfold find_similar_questions_in_file findPairs
    rw [pairLoop_eq_nil _ _ this]
    simp [sortPairs]
  · unfold EvalDir.find_duplicates
    rw [if_pos h]

/-- C7 (witness): the empty corpus produces the empty pair list. -/
theorem C7_witness :
    ([] : List Str).length < 2 ∧ find_similar_questions_in_file [] 0 = [] ∧
      EvalDir.find_duplicates [] 0 = [] :=
  ⟨by decide, (C7_small_corpus_empty [] 0 (by decide)).1,
    (C7_small_corpus_empty [] 0 (by decide)).2⟩

end MoodleToolbox
